import Mathlib

/-!
Verification of the tree-store / layout-engine core of the Noesis knowledge-tree
application (`src/App.tsx`).  The data model, the path-addressed immutable
update `updateNodeState`, the recursive `layout` pass of the `useMemo` block,
and the click guard of the `Node` component are embedded as executable Lean
definitions, and the spec's claims about them are proved or refuted.
Optional TypeScript fields are modelled with `Option`; JS `number` coordinates
are modelled with `ℚ` (all layout arithmetic is exact on dyadic rationals).
-/

set_option autoImplicit false

/-- Embedding of the `TreeNodeData` interface of `src/App.tsx` (lines 11-16):
title, description, the optional `subtopics` array and the optional transient
`_isLoading` flag. -/
inductive TreeNodeData : Type where
  | mk (title : String) (description : String)
       (subtopics : Option (List TreeNodeData)) (isLoading : Option Bool)

def TreeNodeData.title : TreeNodeData → String
  | .mk t _ _ _ => t

def TreeNodeData.description : TreeNodeData → String
  | .mk _ d _ _ => d

def TreeNodeData.subtopics : TreeNodeData → Option (List TreeNodeData)
  | .mk _ _ s _ => s

def TreeNodeData.isLoading : TreeNodeData → Option Bool
  | .mk _ _ _ l => l

/-- Embedding of the `KnowledgeTree` root wrapper of `src/App.tsx` (lines 18-22). -/
structure KnowledgeTree : Type where
  topic : String
  description : String
  subtopics : List TreeNodeData

-- Layout constants of `src/App.tsx` (lines 34-38), as exact rationals.
def LEVEL_SPACING : ℚ := 220
def VERTICAL_SPACING : ℚ := 30
def NODE_HEIGHT : ℚ := 40
def PADDING : ℚ := 50

/-- JS `Array.prototype.map` when the callback also receives the element index;
`k` is the index handed to the first element. -/
def mapWithIndex (g : Nat → TreeNodeData → TreeNodeData) : Nat → List TreeNodeData → List TreeNodeData
  | _, [] => []
  | k, n :: ns => g k n :: mapWithIndex g (k + 1) ns

/-- Embedding of `updateNodeState` from `src/App.tsx` (lines 355-368): the
path-addressed immutable update on a `subtopics` sequence.  `path[0]` being
`undefined` on an empty JS array becomes the `[]` case; the JS bounds check
`index >= nodes.length` and the `node.subtopics || []` default are kept as
written. -/
def updateNodeState : List TreeNodeData → List Nat → (TreeNodeData → TreeNodeData) → List TreeNodeData
  | nodes, [], _ => nodes
  | nodes, index :: rest, updater =>
    if nodes.length ≤ index then nodes
    else
      mapWithIndex (fun i node =>
        if i = index then
          if rest = [] then updater node
          else match node with
            | .mk t d s l => .mk t d (some (updateNodeState (s.getD []) rest updater)) l
        else node) 0 nodes

/-- The way `handleExpand` applies `updateNodeState` to the current tree
(`src/App.tsx` lines 373, 379, 381): rebuild the root wrapper around the
updated `subtopics` sequence. -/
def applyAt (tree : KnowledgeTree) (path : List Nat) (updater : TreeNodeData → TreeNodeData) :
    KnowledgeTree :=
  { tree with subtopics := updateNodeState tree.subtopics path updater }

/-- The `node => ({ ...node, _isLoading: true })` updater of `handleExpand`
(`src/App.tsx` line 373). -/
def markLoading : TreeNodeData → TreeNodeData
  | .mk t d s _ => .mk t d s (some true)

/-- The `node => ({ ...node, _isLoading: false })` updater used on expansion
failure (`src/App.tsx` line 381). -/
def clearLoadingOnly : TreeNodeData → TreeNodeData
  | .mk t d s _ => .mk t d s (some false)

/-- The success updater of `handleExpand` (`src/App.tsx` line 379): replace
`subtopics` with the freshly expanded children and clear the loading flag. -/
def replaceSubtopicsClearLoading (expanded : List TreeNodeData) : TreeNodeData → TreeNodeData
  | .mk t d _ _ => .mk t d (some expanded) (some false)

/-- The failure branch of `handleExpand` (`src/App.tsx` line 381). -/
def handleExpandFailure (tree : KnowledgeTree) (path : List Nat) : KnowledgeTree :=
  applyAt tree path clearLoadingOnly

/-- The `canExpand` guard of the `Node` component (`src/App.tsx` line 165):
`!node.subtopics || node.subtopics.length === 0`. -/
def canExpand (n : TreeNodeData) : Bool :=
  match n.subtopics with
  | none => true
  | some l => l.isEmpty

/-- The condition under which `handleNodeClick` (`src/App.tsx` lines 167-173)
calls `onExpand`: `canExpand && !node._isLoading`, with JS truthiness of the
optional flag. -/
def clickTriggersExpand (n : TreeNodeData) : Bool :=
  canExpand n && !(n.isLoading.getD false)

/-- Structural lookup along an `indexPath`, starting below a given node:
follow `subtopics` (defaulted to `[]` when absent, exactly as
`updateNodeState` does) through the successive indices. -/
def getAtNode : TreeNodeData → List Nat → Option TreeNodeData
  | n, [] => some n
  | n, i :: rest =>
    match (n.subtopics.getD [])[i]? with
    | none => none
    | some c => getAtNode c rest

/-- Structural lookup of the node addressed by `path` inside a `subtopics`
sequence.  The empty path addresses no node of the sequence. -/
def getAt (nodes : List TreeNodeData) : List Nat → Option TreeNodeData
  | [] => none
  | i :: rest => (nodes[i]?).bind fun n => getAtNode n rest

/-- `q` is an initial segment of `p` (the ancestor-or-self relation on index
paths). -/
def isInitSeg : List Nat → List Nat → Bool
  | [], _ => true
  | _ :: _, [] => false
  | a :: as, b :: bs => a = b && isInitSeg as bs

mutual
/-- Normalisation identifying an absent `subtopics` field with an empty one
(the two are indistinguishable leaves by design, spec section 4.2). -/
def normNode : TreeNodeData → TreeNodeData
  | .mk t d none l => .mk t d (some []) l
  | .mk t d (some xs) l => .mk t d (some (normList xs)) l

def normList : List TreeNodeData → List TreeNodeData
  | [] => []
  | n :: ns => normNode n :: normList ns
end

mutual
/-- Every node of the tree carries an explicit `subtopics` array, as the
provider wire contract promises (spec section 6). -/
def subtopicsPresentNode : TreeNodeData → Bool
  | .mk _ _ none _ => false
  | .mk _ _ (some xs) _ => subtopicsPresentList xs

def subtopicsPresentList : List TreeNodeData → Bool
  | [] => true
  | n :: ns => subtopicsPresentNode n && subtopicsPresentList ns
end

/-- The fields of a node other than its `subtopics` container. -/
def containerFields (n : TreeNodeData) : String × String × Option Bool :=
  (n.title, n.description, n.isLoading)

-- ### Basic lemmas about the update machinery

theorem mapWithIndex_getElem? (g : Nat → TreeNodeData → TreeNodeData) :
    ∀ (ns : List TreeNodeData) (k j : Nat), (mapWithIndex g k ns)[j]? = (ns[j]?).map (g (k + j))
  | [], _, _ => by simp [mapWithIndex]
  | n :: ns, k, 0 => by simp [mapWithIndex]
  | n :: ns, k, j + 1 => by
    have ih := mapWithIndex_getElem? g ns (k + 1) j
    simp only [mapWithIndex, List.getElem?_cons_succ, ih]
    ring_nf

theorem mapWithIndex_length (g : Nat → TreeNodeData → TreeNodeData) :
    ∀ (ns : List TreeNodeData) (k : Nat), (mapWithIndex g k ns).length = ns.length
  | [], _ => rfl
  | n :: ns, k => by simp [mapWithIndex, mapWithIndex_length g ns (k + 1)]

theorem updateNodeState_nil (nodes : List TreeNodeData) (f : TreeNodeData → TreeNodeData) :
    updateNodeState nodes [] f = nodes := rfl

theorem updateNodeState_oob_head (nodes : List TreeNodeData) (i : Nat) (rest : List Nat)
    (f : TreeNodeData → TreeNodeData) (h : nodes.length ≤ i) :
    updateNodeState nodes (i :: rest) f = nodes := by
  simp [updateNodeState, h]

/-- The transform `updateNodeState` applies to the single selected slot. -/
def updSlot (rest : List Nat) (f : TreeNodeData → TreeNodeData) (node : TreeNodeData) : TreeNodeData :=
  if rest = [] then f node
  else match node with
    | .mk t d s l => .mk t d (some (updateNodeState (s.getD []) rest f)) l

theorem updateNodeState_getElem? (nodes : List TreeNodeData) (i : Nat) (rest : List Nat)
    (f : TreeNodeData → TreeNodeData) (hlt : i < nodes.length) (j : Nat) :
    (updateNodeState nodes (i :: rest) f)[j]? =
      (nodes[j]?).map (fun node => if j = i then updSlot rest f node else node) := by
  have hno : ¬ nodes.length ≤ i := by omega
  simp only [updateNodeState, hno, if_false, mapWithIndex_getElem?, Nat.zero_add]
  rfl

theorem updateNodeState_length (nodes : List TreeNodeData) (path : List Nat)
    (f : TreeNodeData → TreeNodeData) :
    (updateNodeState nodes path f).length = nodes.length := by
  match path with
  | [] => rfl
  | i :: rest =>
    by_cases h : nodes.length ≤ i
    · simp [updateNodeState, h]
    · simp [updateNodeState, h, mapWithIndex_length]

theorem getAt_cons (nodes : List TreeNodeData) (i : Nat) (rest : List Nat) :
    getAt nodes (i :: rest) = (nodes[i]?).bind fun n => getAtNode n rest := rfl

theorem getAtNode_cons (n : TreeNodeData) (j : Nat) (r : List Nat) :
    getAtNode n (j :: r) = ((n.subtopics.getD [])[j]?).bind fun c => getAtNode c r := by
  cases h : (n.subtopics.getD [])[j]? <;> simp [getAtNode, h]

theorem getAtNode_eq_getAt (n : TreeNodeData) (q : List Nat) (hq : q ≠ []) :
    getAtNode n q = getAt (n.subtopics.getD []) q := by
  match q with
  | j :: r => rw [getAtNode_cons]; rfl

theorem isInitSeg_nil_left (p : List Nat) : isInitSeg [] p = true := rfl

theorem isInitSeg_cons_cons (a b : Nat) (as bs : List Nat) :
    isInitSeg (a :: as) (b :: bs) = (decide (a = b) && isInitSeg as bs) := rfl

theorem isInitSeg_refl (p : List Nat) : isInitSeg p p = true := by
  induction p with
  | nil => rfl
  | cons a as ih => simp [isInitSeg, ih]

/-- Frame property of `updateNodeState`: a lookup along a path that neither
contains nor is contained in the update path is unchanged. -/
theorem updateNodeState_frame (p : List Nat) :
    ∀ (nodes : List TreeNodeData) (f : TreeNodeData → TreeNodeData) (q : List Nat),
      isInitSeg q p = false → isInitSeg p q = false →
      getAt (updateNodeState nodes p f) q = getAt nodes q := by
  induction p with
  | nil =>
    intro nodes f q h1 h2
    rfl
  | cons i p' ih =>
    intro nodes f q h1 h2
    match q with
    | [] => simp [isInitSeg] at h1
    | j :: q' =>
      by_cases hlen : nodes.length ≤ i
      · rw [updateNodeState_oob_head _ _ _ _ hlen]
      · have hlt : i < nodes.length := by omega
        rw [getAt_cons, getAt_cons, updateNodeState_getElem? _ _ _ _ hlt]
        by_cases hij : j = i
        · subst hij
          rw [isInitSeg_cons_cons] at h1 h2
          have h1' : isInitSeg q' p' = false := by simpa using h1
          have h2' : isInitSeg p' q' = false := by simpa using h2
          have hp' : p' ≠ [] := by
            intro hcon
            rw [hcon, isInitSeg_nil_left] at h2'
            simp at h2'
          have hq' : q' ≠ [] := by
            intro hcon
            rw [hcon, isInitSeg_nil_left] at h1'
            simp at h1'
          cases h : nodes[j]? with
          | none => simp
          | some n =>
            simp only [Option.map_some', Option.some_bind, if_pos rfl]
            cases n with
            | mk t d s l =>
              rw [updSlot, if_neg hp']
              rw [getAtNode_eq_getAt _ _ hq', getAtNode_eq_getAt _ _ hq']
              simp only [TreeNodeData.subtopics, Option.getD_some]
              exact ih (s.getD []) f q' h1' h2'
        · simp only [if_neg hij]
          cases h : nodes[j]? <;> simp

/-- The node addressed by the update path itself is exactly the old node with
the updater applied (also when the path is out of bounds: both sides are then
`none`). -/
theorem updateNodeState_getAt_target (p' : List Nat) :
    ∀ (i : Nat) (nodes : List TreeNodeData) (f : TreeNodeData → TreeNodeData),
      getAt (updateNodeState nodes (i :: p') f) (i :: p') = (getAt nodes (i :: p')).map f := by
  induction p' with
  | nil =>
    intro i nodes f
    by_cases hlen : nodes.length ≤ i
    · rw [updateNodeState_oob_head _ _ _ _ hlen]
      have hnone : nodes[i]? = none := by
        rw [List.getElem?_eq_none_iff]
        omega
      simp [getAt_cons, hnone]
    · have hlt : i < nodes.length := by omega
      rw [getAt_cons, getAt_cons, updateNodeState_getElem? _ _ _ _ hlt]
      cases h : nodes[i]? with
      | none => simp
      | some n => simp [updSlot, getAtNode]
  | cons i' p'' ih =>
    intro i nodes f
    by_cases hlen : nodes.length ≤ i
    · rw [updateNodeState_oob_head _ _ _ _ hlen]
      have hnone : nodes[i]? = none := by
        rw [List.getElem?_eq_none_iff]
        omega
      simp [getAt_cons, hnone]
    · have hlt : i < nodes.length := by omega
      rw [getAt_cons, getAt_cons, updateNodeState_getElem? _ _ _ _ hlt]
      cases h : nodes[i]? with
      | none => simp
      | some n =>
        simp only [Option.map_some', Option.some_bind, eq_self_iff_true, if_true]
        cases n with
        | mk t d s l =>
          rw [updSlot, if_neg (List.cons_ne_nil i' p'')]
          rw [getAtNode_eq_getAt _ _ (List.cons_ne_nil i' p''),
            getAtNode_eq_getAt _ _ (List.cons_ne_nil i' p'')]
          simp only [TreeNodeData.subtopics, Option.getD_some]
          rw [ih i' (s.getD []) f]

/-- Strict ancestors of the update path keep their title, description and
loading flag; only their `subtopics` container is rebuilt. -/
theorem updateNodeState_getAt_ancestor (q : List Nat) :
    ∀ (p : List Nat) (nodes : List TreeNodeData) (f : TreeNodeData → TreeNodeData),
      isInitSeg q p = true → q ≠ p → q ≠ [] →
      (getAt (updateNodeState nodes p f) q).map containerFields =
        (getAt nodes q).map containerFields := by
  induction q with
  | nil =>
    intro p nodes f _ _ hq
    exact absurd rfl hq
  | cons j q' ih =>
    intro p nodes f hseg hne _
    match p with
    | [] => simp [isInitSeg] at hseg
    | i :: p' =>
      rw [isInitSeg_cons_cons] at hseg
      have hji : j = i := by
        by_contra hcon
        simp [hcon] at hseg
      subst hji
      have hseg' : isInitSeg q' p' = true := by simpa using hseg
      by_cases hlen : nodes.length ≤ j
      · rw [updateNodeState_oob_head _ _ _ _ hlen]
      · have hlt : j < nodes.length := by omega
        rw [getAt_cons, getAt_cons, updateNodeState_getElem? _ _ _ _ hlt]
        have hp' : p' ≠ [] := by
          intro hcon
          subst hcon
          match q' with
          | [] => exact hne rfl
          | _ :: _ => simp [isInitSeg] at hseg'
        cases h : nodes[j]? with
        | none => simp
        | some n =>
          simp only [Option.map_some', Option.some_bind, if_pos rfl]
          cases n with
          | mk t d s l =>
            rw [updSlot, if_neg hp']
            match q' with
            | [] =>
              simp [getAtNode, containerFields, TreeNodeData.title,
                TreeNodeData.description, TreeNodeData.isLoading]
            | j' :: q'' =>
              have hq'ne : (j' :: q'') ≠ ([] : List Nat) := List.cons_ne_nil j' q''
              rw [getAtNode_eq_getAt _ _ hq'ne, getAtNode_eq_getAt _ _ hq'ne]
              simp only [TreeNodeData.subtopics, Option.getD_some]
              have hne' : (j' :: q'') ≠ p' := by
                intro hcon
                exact hne (by rw [hcon])
              exact ih p' (s.getD []) f hseg' hne' hq'ne

/-- Splitting a lookup at an intermediate point of the path. -/
theorem getAt_append (p : List Nat) :
    ∀ (nodes : List TreeNodeData) (r : List Nat), p ≠ [] → r ≠ [] →
      getAt nodes (p ++ r) =
        (getAt nodes p).bind fun n => getAt (n.subtopics.getD []) r := by
  induction p with
  | nil => intro nodes r hp _; exact absurd rfl hp
  | cons i p' ih =>
    intro nodes r _ hr
    rw [List.cons_append, getAt_cons, getAt_cons]
    cases h : nodes[i]? with
    | none => simp
    | some n =>
      simp only [Option.some_bind]
      match p' with
      | [] =>
        rw [List.nil_append, getAtNode_eq_getAt _ _ hr]
        simp [getAtNode]
      | i' :: p'' =>
        have hp'ne : (i' :: p'') ≠ ([] : List Nat) := List.cons_ne_nil i' p''
        have happ : (i' :: p'') ++ r ≠ ([] : List Nat) := by simp
        rw [getAtNode_eq_getAt _ _ happ, getAtNode_eq_getAt _ _ hp'ne]
        exact ih (n.subtopics.getD []) r hp'ne hr

/-- A strict descendant of the update path is unchanged whenever the updater
preserves the `subtopics` field (as `clearLoadingOnly` and `markLoading` do). -/
theorem updateNodeState_getAt_descendant (p r : List Nat) (nodes : List TreeNodeData)
    (f : TreeNodeData → TreeNodeData) (hf : ∀ n, (f n).subtopics = n.subtopics)
    (hp : p ≠ []) (hr : r ≠ []) :
    getAt (updateNodeState nodes p f) (p ++ r) = getAt nodes (p ++ r) := by
  rw [getAt_append p _ r hp hr, getAt_append p nodes r hp hr]
  match p with
  | i :: p' =>
    rw [updateNodeState_getAt_target p' i nodes f]
    cases h : getAt nodes (i :: p') with
    | none => simp
    | some n => simp [hf n]

theorem normNode_mk (t d : String) (s : Option (List TreeNodeData)) (l : Option Bool) :
    normNode (.mk t d s l) = .mk t d (some (normList (s.getD []))) l := by
  cases s <;> rfl

theorem normList_getElem? :
    ∀ (ns : List TreeNodeData) (j : Nat), (normList ns)[j]? = (ns[j]?).map normNode
  | [], _ => by simp [normList]
  | n :: ns, 0 => by simp [normList]
  | n :: ns, j + 1 => by
    simp only [normList, List.getElem?_cons_succ]
    exact normList_getElem? ns j

theorem normList_length : ∀ ns : List TreeNodeData, (normList ns).length = ns.length
  | [] => rfl
  | n :: ns => by simp [normList, normList_length ns]

/-- An out-of-bounds update is a no-op up to identifying absent and empty
`subtopics` along the traversed spine. -/
theorem updateNodeState_oob_norm (p : List Nat) :
    ∀ (nodes : List TreeNodeData) (f : TreeNodeData → TreeNodeData),
      p ≠ [] → getAt nodes p = none →
      normList (updateNodeState nodes p f) = normList nodes := by
  induction p with
  | nil => intro nodes f hp _; exact absurd rfl hp
  | cons i p' ih =>
    intro nodes f _ hnone
    by_cases hlen : nodes.length ≤ i
    · rw [updateNodeState_oob_head _ _ _ _ hlen]
    · have hlt : i < nodes.length := by omega
      apply List.ext_getElem?
      intro j
      rw [normList_getElem?, normList_getElem?, updateNodeState_getElem? _ _ _ _ hlt]
      by_cases hij : j = i
      · subst hij
        cases h : nodes[j]? with
        | none => simp
        | some n =>
          simp only [Option.map_some', eq_self_iff_true, if_true]
          have hp' : p' ≠ [] := by
            intro hcon
            subst hcon
            rw [getAt_cons, h] at hnone
            simp [getAtNode] at hnone
          cases n with
          | mk t d s l =>
            rw [updSlot, if_neg hp']
            rw [normNode_mk, normNode_mk]
            have hsub : getAt (s.getD []) p' = none := by
              rw [getAt_cons, h] at hnone
              simp only [Option.some_bind] at hnone
              rw [getAtNode_eq_getAt _ _ hp'] at hnone
              exact hnone
            simp only [Option.getD_some]
            rw [ih (s.getD []) f hp' hsub]
      · simp [hij]

theorem subtopicsPresentList_getElem? :
    ∀ (ns : List TreeNodeData) (j : Nat) (n : TreeNodeData),
      subtopicsPresentList ns = true → ns[j]? = some n → subtopicsPresentNode n = true
  | [], j, n => by simp
  | m :: ns, 0, n => by
    intro hall h
    simp only [List.getElem?_cons_zero, Option.some_inj] at h
    subst h
    simp only [subtopicsPresentList, Bool.and_eq_true] at hall
    exact hall.1
  | m :: ns, j + 1, n => by
    intro hall h
    simp only [List.getElem?_cons_succ] at h
    simp only [subtopicsPresentList, Bool.and_eq_true] at hall
    exact subtopicsPresentList_getElem? ns j n hall.2 h

/-- On a tree whose nodes all carry an explicit `subtopics` array (the provider
wire shape), an out-of-bounds update returns a value equal to the input. -/
theorem updateNodeState_oob_present (p : List Nat) :
    ∀ (nodes : List TreeNodeData) (f : TreeNodeData → TreeNodeData),
      subtopicsPresentList nodes = true → p ≠ [] → getAt nodes p = none →
      updateNodeState nodes p f = nodes := by
  induction p with
  | nil => intro nodes f _ hp _; exact absurd rfl hp
  | cons i p' ih =>
    intro nodes f hall _ hnone
    by_cases hlen : nodes.length ≤ i
    · rw [updateNodeState_oob_head _ _ _ _ hlen]
    · have hlt : i < nodes.length := by omega
      apply List.ext_getElem?
      intro j
      rw [updateNodeState_getElem? _ _ _ _ hlt]
      by_cases hij : j = i
      · subst hij
        cases h : nodes[j]? with
        | none => simp
        | some n =>
          simp only [Option.map_some', eq_self_iff_true, if_true, Option.some_inj]
          have hp' : p' ≠ [] := by
            intro hcon
            subst hcon
            rw [getAt_cons, h] at hnone
            simp [getAtNode] at hnone
          cases n with
          | mk t d s l =>
            have hpres : subtopicsPresentNode (.mk t d s l) = true :=
              subtopicsPresentList_getElem? nodes j _ hall h
            match s, hpres with
            | some xs, hpres =>
              have hxs : subtopicsPresentList xs = true := by
                simpa [subtopicsPresentNode] using hpres
              have hsub : getAt xs p' = none := by
                rw [getAt_cons, h] at hnone
                simp only [Option.some_bind] at hnone
                rw [getAtNode_eq_getAt _ _ hp'] at hnone
                simpa using hnone
              rw [updSlot, if_neg hp']
              simp only [Option.getD_some]
              rw [ih xs f hxs hp' hsub]
      · simp [hij]

theorem isInitSeg_append_of (q : List Nat) :
    ∀ p : List Nat, isInitSeg q p = true → ∃ r, p = q ++ r := by
  induction q with
  | nil => intro p _; exact ⟨p, rfl⟩
  | cons a as ih =>
    intro p hseg
    match p with
    | [] => simp [isInitSeg] at hseg
    | b :: bs =>
      rw [isInitSeg_cons_cons] at hseg
      have hab : a = b := by
        by_contra hcon
        simp [hcon] at hseg
      subst hab
      have hseg' : isInitSeg as bs = true := by simpa using hseg
      obtain ⟨r, hr⟩ := ih bs hseg'
      exact ⟨r, by rw [List.cons_append, hr]⟩

theorem clearLoadingOnly_fields (n : TreeNodeData) :
    (clearLoadingOnly n).isLoading = some false ∧
    (clearLoadingOnly n).subtopics = n.subtopics ∧
    (clearLoadingOnly n).title = n.title ∧
    (clearLoadingOnly n).description = n.description := by
  cases n with
  | mk t d s l =>
    simp [clearLoadingOnly, TreeNodeData.isLoading, TreeNodeData.subtopics,
      TreeNodeData.title, TreeNodeData.description]

-- ### Claim theorems about the tree store

/-- **C1** (amended).  For every out-of-bounds `indexPath`, `updateNodeState`
never throws (it is a total function) and returns a tree equal to the input up
to identifying an absent `subtopics` field with an empty one along the
traversed spine; when the first index is already out of bounds the input
sequence itself is returned, and on trees whose nodes all carry an explicit
`subtopics` array (the provider wire shape) the result is exactly equal to the
input.  The claim's literal reading — the result is always deep-equal to the
input — is refuted by `C1_counterexample`. -/
theorem C1_out_of_bounds_noop (nodes : List TreeNodeData) (p : List Nat)
    (f : TreeNodeData → TreeNodeData) (hp : p ≠ []) (hoob : getAt nodes p = none) :
    normList (updateNodeState nodes p f) = normList nodes ∧
    (subtopicsPresentList nodes = true → updateNodeState nodes p f = nodes) ∧
    (∀ i rest, p = i :: rest → nodes.length ≤ i → updateNodeState nodes p f = nodes) := by
  refine ⟨updateNodeState_oob_norm p nodes f hp hoob,
    fun hall => updateNodeState_oob_present p nodes f hall hp hoob,
    fun i rest hpe hlen => ?_⟩
  subst hpe
  exact updateNodeState_oob_head nodes i rest f hlen

theorem C1_out_of_bounds_noop_witness :
    ([TreeNodeData.mk "a" "d" (some []) none] : List TreeNodeData) ≠ [] ∧
    normList (updateNodeState [TreeNodeData.mk "a" "d" (some []) none] [3] markLoading) =
      normList [TreeNodeData.mk "a" "d" (some []) none] :=
  ⟨by simp,
    (C1_out_of_bounds_noop [TreeNodeData.mk "a" "d" (some []) none] [3] markLoading
      (by simp) rfl).1⟩

/-- **C1** counterexample: the path `[0, 0]` is out of bounds at depth 1 for a
single node with an absent `subtopics` field, yet `updateNodeState` returns a
tree that is not deep-equal to the input — the traversed node's `subtopics`
changes from absent to an explicit empty array. -/
theorem C1_counterexample :
    getAt [TreeNodeData.mk "a" "d" none none] [0, 0] = none ∧
    updateNodeState [TreeNodeData.mk "a" "d" none none] [0, 0] markLoading ≠
      [TreeNodeData.mk "a" "d" none none] := by
  refine ⟨rfl, ?_⟩
  have heval : updateNodeState [TreeNodeData.mk "a" "d" none none] [0, 0] markLoading =
      [TreeNodeData.mk "a" "d" (some []) none] := rfl
  rw [heval]
  simp

/-- **C2**.  For every in-bounds `indexPath`, `updateNodeState` changes only
the node addressed by the path: every node whose path neither contains nor is
contained in the update path is unchanged in value, strict ancestors keep
their title, description and loading flag (only their `subtopics` container is
rebuilt), and the target node becomes exactly the updater applied to the old
target. -/
theorem C2_update_frame (nodes : List TreeNodeData) (p : List Nat)
    (f : TreeNodeData → TreeNodeData) (hin : (getAt nodes p).isSome) :
    (∀ q, isInitSeg q p = false → isInitSeg p q = false →
        getAt (updateNodeState nodes p f) q = getAt nodes q) ∧
    (∀ q, isInitSeg q p = true → q ≠ p → q ≠ [] →
        (getAt (updateNodeState nodes p f) q).map containerFields =
          (getAt nodes q).map containerFields) ∧
    getAt (updateNodeState nodes p f) p = (getAt nodes p).map f := by
  refine ⟨fun q h1 h2 => updateNodeState_frame p nodes f q h1 h2,
    fun q h1 h2 h3 => updateNodeState_getAt_ancestor q p nodes f h1 h2 h3, ?_⟩
  match p with
  | [] => simp [getAt] at hin
  | i :: p' => exact updateNodeState_getAt_target p' i nodes f

def sampleNodes : List TreeNodeData :=
  [.mk "a" "ad" (some [.mk "c" "cd" none none, .mk "e" "ed" none none]) none,
   .mk "b" "bd" none none]

theorem C2_update_frame_witness :
    getAt (updateNodeState sampleNodes [0, 0] markLoading) [1] = getAt sampleNodes [1] ∧
    getAt (updateNodeState sampleNodes [0, 0] markLoading) [0, 1] = getAt sampleNodes [0, 1] :=
  ⟨(C2_update_frame sampleNodes [0, 0] markLoading rfl).1 [1] rfl rfl,
   (C2_update_frame sampleNodes [0, 0] markLoading rfl).1 [0, 1] rfl rfl⟩

/-- **C6** (amended).  `updateNodeState` called with the empty `indexPath` is a
no-op: the sequence is returned unchanged and the updater is never applied, so
the empty path does not address the root (refuting the claim's literal
reading, see `C6_counterexample`). -/
theorem C6_empty_path_noop (tree : KnowledgeTree) (f : TreeNodeData → TreeNodeData) :
    applyAt tree [] f = tree ∧
    ∀ nodes : List TreeNodeData, updateNodeState nodes [] f = nodes :=
  ⟨rfl, fun _ => rfl⟩

/-- **C6** counterexample: on a concrete tree the empty path update returns the
tree unchanged even though the updater (here `markLoading`) genuinely changes
the root node, so the empty path does not address the root. -/
theorem C6_counterexample :
    applyAt ⟨"Root", "rd", [.mk "a" "d" none none]⟩ [] markLoading =
      ⟨"Root", "rd", [.mk "a" "d" none none]⟩ ∧
    markLoading (.mk "Root" "rd" (some [.mk "a" "d" none none]) none) ≠
      .mk "Root" "rd" (some [.mk "a" "d" none none]) none := by
  refine ⟨rfl, ?_⟩
  simp [markLoading]

/-- **C7**.  When an expansion request fails, the failure branch of
`handleExpand` clears exactly the target node's loading flag: the root wrapper
keeps its topic and description, the target becomes the old target with
`_isLoading` set to `false` and its prior `subtopics` untouched, every node
not on the root-to-target spine (siblings and descendants alike) is unchanged
in value, and strict ancestors keep all fields but their rebuilt `subtopics`
container. -/
theorem C7_expand_failure (tree : KnowledgeTree) (p : List Nat)
    (hin : (getAt tree.subtopics p).isSome) :
    (handleExpandFailure tree p).topic = tree.topic ∧
    (handleExpandFailure tree p).description = tree.description ∧
    getAt (handleExpandFailure tree p).subtopics p =
      (getAt tree.subtopics p).map clearLoadingOnly ∧
    (∀ n, (clearLoadingOnly n).isLoading = some false ∧
      (clearLoadingOnly n).subtopics = n.subtopics) ∧
    (∀ q, isInitSeg q p = false →
        getAt (handleExpandFailure tree p).subtopics q = getAt tree.subtopics q) ∧
    (∀ q, isInitSeg q p = true → q ≠ p → q ≠ [] →
        (getAt (handleExpandFailure tree p).subtopics q).map containerFields =
          (getAt tree.subtopics q).map containerFields) := by
  have hp : p ≠ [] := by
    intro hcon
    subst hcon
    simp [getAt] at hin
  have hsubs : (handleExpandFailure tree p).subtopics =
      updateNodeState tree.subtopics p clearLoadingOnly := rfl
  refine ⟨rfl, rfl, ?_, fun n => ⟨(clearLoadingOnly_fields n).1, (clearLoadingOnly_fields n).2.1⟩,
    ?_, ?_⟩
  · rw [hsubs]
    match p with
    | i :: p' => exact updateNodeState_getAt_target p' i tree.subtopics clearLoadingOnly
  · intro q hq
    rw [hsubs]
    by_cases hpq : isInitSeg p q = true
    · obtain ⟨r, hr⟩ := isInitSeg_append_of p q hpq
      have hr_ne : r ≠ [] := by
        intro hcon
        subst hcon
        rw [List.append_nil] at hr
        subst hr
        rw [isInitSeg_refl] at hq
        simp at hq
      subst hr
      exact updateNodeState_getAt_descendant p r tree.subtopics clearLoadingOnly
        (fun n => (clearLoadingOnly_fields n).2.1) hp hr_ne
    · have hpq' : isInitSeg p q = false := by
        cases hcase : isInitSeg p q
        · rfl
        · exact absurd hcase hpq
      exact updateNodeState_frame p tree.subtopics clearLoadingOnly q hq hpq'
  · intro q h1 h2 h3
    rw [hsubs]
    exact updateNodeState_getAt_ancestor q p tree.subtopics clearLoadingOnly h1 h2 h3

theorem C7_expand_failure_witness :
    getAt (handleExpandFailure ⟨"R", "rd", sampleNodes⟩ [0]).subtopics [0] =
      some (.mk "a" "ad" (some [.mk "c" "cd" none none, .mk "e" "ed" none none]) (some false)) ∧
    getAt (handleExpandFailure ⟨"R", "rd", sampleNodes⟩ [0]).subtopics [1] =
      getAt sampleNodes [1] := by
  have h := C7_expand_failure ⟨"R", "rd", sampleNodes⟩ [0] rfl
  exact ⟨by rw [h.2.2.1]; rfl, h.2.2.2.2.1 [1] rfl⟩

/-- **C8**.  A click on a node triggers an expansion request exactly when the
node has absent or empty `subtopics` and its loading flag is not set; in
particular a node whose `_isLoading` flag is `true` never re-triggers
`onExpand`, so the guard suppresses duplicate in-flight requests. -/
theorem C8_click_guard (n : TreeNodeData) :
    (n.isLoading = some true → clickTriggersExpand n = false) ∧
    (clickTriggersExpand n = true ↔
      ((n.subtopics = none ∨ n.subtopics = some []) ∧ n.isLoading ≠ some true)) := by
  cases n with
  | mk t d s l =>
    constructor
    · intro h
      simp only [TreeNodeData.isLoading] at h
      subst h
      simp [clickTriggersExpand, canExpand, TreeNodeData.isLoading]
    · match s, l with
      | none, none =>
        simp [clickTriggersExpand, canExpand, TreeNodeData.subtopics, TreeNodeData.isLoading]
      | none, some b =>
        cases b <;>
          simp [clickTriggersExpand, canExpand, TreeNodeData.subtopics, TreeNodeData.isLoading]
      | some xs, none =>
        simp [clickTriggersExpand, canExpand, TreeNodeData.subtopics, TreeNodeData.isLoading,
          List.isEmpty_iff]
      | some xs, some b =>
        cases b <;>
          simp [clickTriggersExpand, canExpand, TreeNodeData.subtopics, TreeNodeData.isLoading,
            List.isEmpty_iff]

theorem C8_click_guard_witness :
    clickTriggersExpand (.mk "a" "d" none (some true)) = false :=
  (C8_click_guard (.mk "a" "d" none (some true))).1 rfl

/-- **C9** (amended).  `clearLoadingOnly` is a value-level no-op on a node
whose `_isLoading` flag is explicitly `false`; on a node with an absent flag
it changes exactly that flag, materialising `_isLoading: false` (so the
result is not deep-equal to the input, refuting the claim's "(or absent)"
case, see `C9_counterexample`). -/
theorem C9_clear_loading_idempotent :
    (∀ n : TreeNodeData, n.isLoading = some false → clearLoadingOnly n = n) ∧
    (∀ (t d : String) (s : Option (List TreeNodeData)),
      clearLoadingOnly (.mk t d s none) = .mk t d s (some false)) := by
  constructor
  · intro n h
    cases n with
    | mk t d s l =>
      simp only [TreeNodeData.isLoading] at h
      subst h
      rfl
  · intro t d s
    rfl

theorem C9_clear_loading_idempotent_witness :
    clearLoadingOnly (.mk "a" "d" none (some false)) = .mk "a" "d" none (some false) :=
  C9_clear_loading_idempotent.1 (.mk "a" "d" none (some false)) rfl

/-- **C9** counterexample: a node with an absent `_isLoading` flag is not
loading, yet `clearLoadingOnly` produces a node that is not deep-equal to the
input (the flag key is materialised with value `false`). -/
theorem C9_counterexample :
    (TreeNodeData.mk "a" "d" none none).isLoading = none ∧
    clearLoadingOnly (.mk "a" "d" none none) ≠ .mk "a" "d" none none := by
  refine ⟨rfl, ?_⟩
  simp [clearLoadingOnly]

-- ### The layout engine

/-- Embedding of `ProcessedNode` from `src/App.tsx` (lines 24-31).  The weak
`parent` back-reference is a render-only relation and is omitted; everything
else (the spread of the data fields, coordinates, children, display path and
`indexPath`) is kept. -/
inductive ProcessedNode : Type where
  | mk (title : String) (description : String)
       (subtopics : Option (List TreeNodeData)) (isLoading : Option Bool)
       (x : ℚ) (y : ℚ) (children : List ProcessedNode)
       (path : String) (indexPath : List Nat)

def ProcessedNode.y : ProcessedNode → ℚ
  | .mk _ _ _ _ _ y _ _ _ => y

def ProcessedNode.x : ProcessedNode → ℚ
  | .mk _ _ _ _ x _ _ _ _ => x

def ProcessedNode.children : ProcessedNode → List ProcessedNode
  | .mk _ _ _ _ _ _ c _ _ => c

/-- A node is a leaf for layout purposes when it received no laid-out
children (absent or empty `subtopics`). -/
def ProcessedNode.isLeaf (p : ProcessedNode) : Bool :=
  p.children.isEmpty

/-- The data fields a `ProcessedNode` copies from its `TreeNodeData` via the
object spread. -/
def stripNode : ProcessedNode → TreeNodeData
  | .mk t d s l _ _ _ _ _ => .mk t d s l

mutual
/-- Embedding of the recursive `layout` closure inside the `useMemo` of
`src/App.tsx` (lines 270-300).  The mutable `yCounter` and the `allNodes`
accumulator are threaded as explicit state; `allNodes.push` appends on the
right.  A node whose `subtopics` is absent or empty takes the leaf branch,
exactly as the JS guard `nodeData.subtopics && nodeData.subtopics.length > 0`
decides. -/
def layoutNode : TreeNodeData → Nat → String → List Nat → ℚ → List ProcessedNode →
    ProcessedNode × ℚ × List ProcessedNode
  | .mk t d s l, depth, parentPath, indexPath, yCounter, allNodes =>
    let x : ℚ := depth * LEVEL_SPACING + PADDING
    let path : String := if parentPath = "" then t else parentPath ++ " > " ++ t
    match s with
    | some (c :: cs) =>
      match layoutChildren (c :: cs) (depth + 1) path indexPath 0 yCounter allNodes with
      | (children, y1, ns1) =>
        let fy : ℚ := (children.head?.map ProcessedNode.y).getD 0
        let ly : ℚ := (children.getLast?.map ProcessedNode.y).getD 0
        let node : ProcessedNode := .mk t d s l x (fy + (ly - fy) / 2) children path indexPath
        (node, y1, ns1 ++ [node])
    | none =>
      let node : ProcessedNode := .mk t d none l x yCounter [] path indexPath
      (node, yCounter + (NODE_HEIGHT + VERTICAL_SPACING), allNodes ++ [node])
    | some [] =>
      let node : ProcessedNode := .mk t d (some []) l x yCounter [] path indexPath
      (node, yCounter + (NODE_HEIGHT + VERTICAL_SPACING), allNodes ++ [node])

/-- The `nodeData.subtopics.map((subtopic, index) => layout(subtopic, depth + 1,
processedNode, processedNode.path, [...indexPath, index]))` call: children are
laid out left to right, each receiving the parent's path and its own child
index appended to the parent's `indexPath`. -/
def layoutChildren : List TreeNodeData → Nat → String → List Nat → Nat → ℚ → List ProcessedNode →
    List ProcessedNode × ℚ × List ProcessedNode
  | [], _, _, _, _, yCounter, allNodes => ([], yCounter, allNodes)
  | c :: cs, depth, parentPath, parentIndexPath, index, yCounter, allNodes =>
    match layoutNode c depth parentPath (parentIndexPath ++ [index]) yCounter allNodes with
    | (p, y1, ns1) =>
      match layoutChildren cs depth parentPath parentIndexPath (index + 1) y1 ns1 with
      | (ps, y2, ns2) => (p :: ps, y2, ns2)
end

/-- The root call of the layout pass (`src/App.tsx` lines 302-303):
`layout({ ...treeData, title: treeData.topic }, 0, null, '', [])` with the
`yCounter` seeded at `PADDING` and an empty `allNodes`. -/
def layoutPre (tree : KnowledgeTree) : ProcessedNode × ℚ × List ProcessedNode :=
  layoutNode (.mk tree.topic tree.description (some tree.subtopics) none) 0 "" [] PADDING []

/-- The global centering offset (`src/App.tsx` line 307):
`containerHeight / (2 * viewTransform.k) - rootNode.y`. -/
def rootYOffset (tree : KnowledgeTree) (containerHeight zoomK : ℚ) : ℚ :=
  containerHeight / (2 * zoomK) - (layoutPre tree).1.y

mutual
/-- The `allNodes.forEach(node => { node.y += rootYOffset })` mutation
(`src/App.tsx` lines 309-311), value-style: since every node object is shifted
in place and children alias those same objects, the shift is applied deeply. -/
def addYNode (off : ℚ) : ProcessedNode → ProcessedNode
  | .mk t d s l x y ch pa ip => .mk t d s l x (y + off) (addYList off ch) pa ip

def addYList (off : ℚ) : List ProcessedNode → List ProcessedNode
  | [] => []
  | p :: ps => addYNode off p :: addYList off ps
end

/-- The flat `nodes` list returned by the `useMemo` (`src/App.tsx` line 314),
after the global centering shift. -/
def layoutNodes (tree : KnowledgeTree) (containerHeight zoomK : ℚ) : List ProcessedNode :=
  addYList (rootYOffset tree containerHeight zoomK) (layoutPre tree).2.2

/-- The root `ProcessedNode` after the global centering shift. -/
def layoutRoot (tree : KnowledgeTree) (containerHeight zoomK : ℚ) : ProcessedNode :=
  addYNode (rootYOffset tree containerHeight zoomK) (layoutPre tree).1

mutual
/-- Post-order flattening of a processed subtree: all descendants first, then
the node itself — the order in which `layout` pushes onto `allNodes`. -/
def flattenNode : ProcessedNode → List ProcessedNode
  | .mk t d s l x y ch pa ip => flattenList ch ++ [.mk t d s l x y ch pa ip]

def flattenList : List ProcessedNode → List ProcessedNode
  | [] => []
  | p :: ps => flattenNode p ++ flattenList ps
end

mutual
/-- Post-order listing of the input data nodes themselves. -/
def dataPostorderNode : TreeNodeData → List TreeNodeData
  | .mk t d none l => [.mk t d none l]
  | .mk t d (some []) l => [.mk t d (some []) l]
  | .mk t d (some (c :: cs)) l => dataPostorderList (c :: cs) ++ [.mk t d (some (c :: cs)) l]

def dataPostorderList : List TreeNodeData → List TreeNodeData
  | [] => []
  | c :: cs => dataPostorderNode c ++ dataPostorderList cs
end

mutual
/-- Number of layout leaves (nodes with absent or empty `subtopics`) of a
data subtree. -/
def leafCountNode : TreeNodeData → Nat
  | .mk _ _ none _ => 1
  | .mk _ _ (some []) _ => 1
  | .mk _ _ (some (c :: cs)) _ => leafCountList (c :: cs)

def leafCountList : List TreeNodeData → Nat
  | [] => 0
  | c :: cs => leafCountNode c + leafCountList cs
end

/-- The internal-node centering equation: whenever the node has children, its
y is the first child's y plus half the distance to the last child's y. -/
def topMid (p : ProcessedNode) : Prop :=
  ∀ f g, p.children.head? = some f → p.children.getLast? = some g →
    p.y = f.y + (g.y - f.y) / 2

theorem range_arith_append (cst gap : ℚ) (m1 m2 : Nat) :
    (List.range m1).map (fun i : ℕ => cst + gap * (i : ℚ)) ++
      (List.range m2).map (fun i : ℕ => cst + gap * (m1 : ℚ) + gap * (i : ℚ)) =
    (List.range (m1 + m2)).map (fun i : ℕ => cst + gap * (i : ℚ)) := by
  rw [List.range_add, List.map_append, List.map_map]
  congr 1
  apply List.map_congr_left
  intro i _
  simp only [Function.comp_apply]
  push_cast
  ring

mutual
/-- Master invariant of the layout recursion, node form: the accumulator grows
exactly by the post-order flattening of the returned subtree, the counter
advances by one leaf gap per leaf, every emitted node satisfies the centering
equation, the emitted leaves' y-values form the arithmetic sequence seeded at
the incoming counter, and stripping the emitted nodes recovers the input data
subtree in post-order. -/
theorem layout_master_node (n : TreeNodeData) :
    ∀ (depth : Nat) (pp : String) (ip : List Nat) (c : ℚ) (acc : List ProcessedNode),
      (layoutNode n depth pp ip c acc).2.2 =
        acc ++ flattenNode (layoutNode n depth pp ip c acc).1 ∧
      (layoutNode n depth pp ip c acc).2.1 =
        c + (NODE_HEIGHT + VERTICAL_SPACING) * (leafCountNode n : ℚ) ∧
      (∀ q ∈ flattenNode (layoutNode n depth pp ip c acc).1, topMid q) ∧
      ((flattenNode (layoutNode n depth pp ip c acc).1).filter
          ProcessedNode.isLeaf).map ProcessedNode.y =
        (List.range (leafCountNode n)).map
          (fun i : ℕ => c + (NODE_HEIGHT + VERTICAL_SPACING) * (i : ℚ)) ∧
      (flattenNode (layoutNode n depth pp ip c acc).1).map stripNode = dataPostorderNode n := by
  intro depth pp ip c acc
  cases n with
  | mk t d s l =>
    match s with
    | none =>
      refine ⟨?_, ?_, ?_, ?_, ?_⟩ <;>
        simp [layoutNode, flattenNode, flattenList, leafCountNode, dataPostorderNode,
          ProcessedNode.isLeaf, ProcessedNode.children, ProcessedNode.y, stripNode,
          topMid, List.range_succ]
    | some [] =>
      refine ⟨?_, ?_, ?_, ?_, ?_⟩ <;>
        simp [layoutNode, flattenNode, flattenList, leafCountNode, dataPostorderNode,
          ProcessedNode.isLeaf, ProcessedNode.children, ProcessedNode.y, stripNode,
          topMid, List.range_succ]
    | some (c0 :: cs) =>
      have ihl := layout_master_list (c0 :: cs) (depth + 1)
        (if pp = "" then t else pp ++ " > " ++ t) ip 0 c acc
      rcases hc : layoutChildren (c0 :: cs) (depth + 1)
          (if pp = "" then t else pp ++ " > " ++ t) ip 0 c acc with ⟨children, y1, ns1⟩
      rw [hc] at ihl
      dsimp only at ihl
      obtain ⟨hlen, hacc, hy, hmid, hleaves, hstrip⟩ := ihl
      have hchne : children ≠ [] := by
        intro hcon
        rw [hcon] at hlen
        simp at hlen
      simp only [layoutNode, hc]
      refine ⟨?_, ?_, ?_, ?_, ?_⟩
      · simp [flattenNode, hacc, List.append_assoc]
      · simpa [leafCountNode] using hy
      · intro q hq
        simp only [flattenNode, List.mem_append, List.mem_singleton] at hq
        rcases hq with hq | hq
        · exact hmid q hq
        · subst hq
          intro f g hf hg
          simp only [ProcessedNode.children] at hf hg
          simp [ProcessedNode.y, hf, hg]
      · simp only [flattenNode, List.filter_append]
        have hnl : ProcessedNode.isLeaf
            (.mk t d (some (c0 :: cs)) l ((depth : ℚ) * LEVEL_SPACING + PADDING)
              (((children.head?.map ProcessedNode.y).getD 0) +
                (((children.getLast?.map ProcessedNode.y).getD 0) -
                  ((children.head?.map ProcessedNode.y).getD 0)) / 2)
              children (if pp = "" then t else pp ++ " > " ++ t) ip) = false := by
          simp [ProcessedNode.isLeaf, ProcessedNode.children, List.isEmpty_iff, hchne]
        rw [List.filter_singleton, hnl]
        simpa [leafCountNode] using hleaves
      · simp only [flattenNode, List.map_append, hstrip]
        simp [stripNode, dataPostorderNode]

/-- Master invariant of the layout recursion, child-list form. -/
theorem layout_master_list (ns : List TreeNodeData) :
    ∀ (depth : Nat) (pp : String) (ip : List Nat) (idx : Nat) (c : ℚ) (acc : List ProcessedNode),
      (layoutChildren ns depth pp ip idx c acc).1.length = ns.length ∧
      (layoutChildren ns depth pp ip idx c acc).2.2 =
        acc ++ flattenList (layoutChildren ns depth pp ip idx c acc).1 ∧
      (layoutChildren ns depth pp ip idx c acc).2.1 =
        c + (NODE_HEIGHT + VERTICAL_SPACING) * (leafCountList ns : ℚ) ∧
      (∀ q ∈ flattenList (layoutChildren ns depth pp ip idx c acc).1, topMid q) ∧
      ((flattenList (layoutChildren ns depth pp ip idx c acc).1).filter
          ProcessedNode.isLeaf).map ProcessedNode.y =
        (List.range (leafCountList ns)).map
          (fun i : ℕ => c + (NODE_HEIGHT + VERTICAL_SPACING) * (i : ℚ)) ∧
      (flattenList (layoutChildren ns depth pp ip idx c acc).1).map stripNode =
        dataPostorderList ns := by
  intro depth pp ip idx c acc
  match ns with
  | [] =>
    refine ⟨rfl, ?_, ?_, ?_, ?_, ?_⟩ <;>
      simp [layoutChildren, flattenList, leafCountList, dataPostorderList]
  | c0 :: cs =>
    have ihn := layout_master_node c0 depth pp (ip ++ [idx]) c acc
    rcases h1 : layoutNode c0 depth pp (ip ++ [idx]) c acc with ⟨p1, y1, ns1⟩
    rw [h1] at ihn
    dsimp only at ihn
    obtain ⟨hacc1, hy1, hmid1, hleaves1, hstrip1⟩ := ihn
    have ihl := layout_master_list cs depth pp ip (idx + 1) y1 ns1
    rcases h2 : layoutChildren cs depth pp ip (idx + 1) y1 ns1 with ⟨ps, y2, ns2⟩
    rw [h2] at ihl
    dsimp only at ihl
    obtain ⟨hlen2, hacc2, hy2, hmid2, hleaves2, hstrip2⟩ := ihl
    simp only [layoutChildren, h1, h2]
    refine ⟨?_, ?_, ?_, ?_, ?_, ?_⟩
    · simp [hlen2]
    · simp [flattenList, hacc2, hacc1, List.append_assoc]
    · rw [hy2, hy1]
      simp only [leafCountList]
      push_cast
      ring
    · intro q hq
      simp only [flattenList, List.mem_append] at hq
      rcases hq with hq | hq
      · exact hmid1 q hq
      · exact hmid2 q hq
    · simp only [flattenList, List.filter_append, List.map_append, hleaves1]
      rw [hleaves2, hy1]
      simp only [leafCountList]
      exact range_arith_append c (NODE_HEIGHT + VERTICAL_SPACING) (leafCountNode c0)
        (leafCountList cs)
    · simp only [flattenList, List.map_append, hstrip1, hstrip2, dataPostorderList]
end

theorem addYList_eq_map (off : ℚ) : ∀ ps : List ProcessedNode, addYList off ps = ps.map (addYNode off)
  | [] => rfl
  | p :: ps => by simp [addYList, addYList_eq_map off ps]

theorem addYNode_y (off : ℚ) (p : ProcessedNode) : (addYNode off p).y = p.y + off := by
  cases p with
  | mk t d s l x y ch pa ip => rfl

theorem addYNode_children (off : ℚ) (p : ProcessedNode) :
    (addYNode off p).children = addYList off p.children := by
  cases p with
  | mk t d s l x y ch pa ip => rfl

theorem stripNode_addYNode (off : ℚ) (p : ProcessedNode) :
    stripNode (addYNode off p) = stripNode p := by
  cases p with
  | mk t d s l x y ch pa ip => rfl

theorem isLeaf_addYNode (off : ℚ) (p : ProcessedNode) :
    (addYNode off p).isLeaf = p.isLeaf := by
  cases p with
  | mk t d s l x y ch pa ip =>
    cases ch <;> simp [ProcessedNode.isLeaf, addYNode, addYList, ProcessedNode.children]

theorem topMid_addYNode (off : ℚ) (p : ProcessedNode) (hp : topMid p) :
    topMid (addYNode off p) := by
  intro f g hf hg
  rw [addYNode_children, addYList_eq_map, List.head?_map] at hf
  rw [addYNode_children, addYList_eq_map, List.getLast?_map] at hg
  cases hf0 : p.children.head? with
  | none => rw [hf0] at hf; simp at hf
  | some f0 =>
    cases hg0 : p.children.getLast? with
    | none => rw [hg0] at hg; simp at hg
    | some g0 =>
      rw [hf0] at hf
      rw [hg0] at hg
      simp only [Option.map_some', Option.some_inj] at hf hg
      subst hf
      subst hg
      rw [addYNode_y, addYNode_y, addYNode_y, hp f0 g0 hf0 hg0]
      ring

theorem addYList_append (off : ℚ) (a b : List ProcessedNode) :
    addYList off (a ++ b) = addYList off a ++ addYList off b := by
  rw [addYList_eq_map, addYList_eq_map, addYList_eq_map, List.map_append]

mutual
theorem addY_flattenNode (off : ℚ) (p : ProcessedNode) :
    addYList off (flattenNode p) = flattenNode (addYNode off p) := by
  cases p with
  | mk t d s l x y ch pa ip =>
    rw [flattenNode, addYList_append, addY_flattenList off ch]
    simp [addYNode, flattenNode, addYList]

theorem addY_flattenList (off : ℚ) (ps : List ProcessedNode) :
    addYList off (flattenList ps) = flattenList (addYList off ps) := by
  match ps with
  | [] => rfl
  | p :: ps =>
    rw [flattenList, addYList_append, addY_flattenNode off p, addY_flattenList off ps]
    simp [addYList, flattenList]
end

theorem flattenNode_getLast? (p : ProcessedNode) : (flattenNode p).getLast? = some p := by
  cases p with
  | mk t d s l x y ch pa ip => simp [flattenNode, List.getLast?_concat]

-- ### Claim theorems about the layout engine

/-- **C3**.  In the laid-out node list, every internal node (one that received
children) has y equal to the midpoint of its first and last child's y, i.e.
`y = firstChild.y + (lastChild.y - firstChild.y) / 2`; the equation holds in
the final output, after all descendants' y-values (and the global offset)
are applied. -/
theorem C3_parent_centering (tree : KnowledgeTree) (h k : ℚ) :
    ∀ p ∈ layoutNodes tree h k, ∀ f g,
      p.children.head? = some f → p.children.getLast? = some g →
      p.y = f.y + (g.y - f.y) / 2 := by
  intro p hp f g hf hg
  have hmap : layoutNodes tree h k =
      ((layoutPre tree).2.2).map (addYNode (rootYOffset tree h k)) := by
    rw [layoutNodes, addYList_eq_map]
  rw [hmap, List.mem_map] at hp
  obtain ⟨q, hq, rfl⟩ := hp
  have hm := layout_master_node (.mk tree.topic tree.description (some tree.subtopics) none)
    0 "" [] PADDING []
  have hpre : (layoutPre tree).2.2 = flattenNode (layoutPre tree).1 := by
    simpa [layoutPre] using hm.1
  rw [hpre] at hq
  have hqmid : topMid q := by
    have := hm.2.2.1 q
    simp only [layoutPre] at hq
    exact this hq
  exact topMid_addYNode (rootYOffset tree h k) q hqmid f g hf hg

/-- **C4**.  The leaves of the laid-out tree, in the order they appear in the
output list (depth-first, left to right), receive y-values forming the
arithmetic sequence seeded at `PADDING` with constant gap
`NODE_HEIGHT + VERTICAL_SPACING` before the global offset is added; after the
offset is added the gaps are unchanged and the sequence is strictly
increasing. -/
theorem C4_leaf_spacing (tree : KnowledgeTree) (h k : ℚ) :
    (((layoutPre tree).2.2).filter ProcessedNode.isLeaf).map ProcessedNode.y =
      (List.range (leafCountNode
          (.mk tree.topic tree.description (some tree.subtopics) none))).map
        (fun i : ℕ => PADDING + (NODE_HEIGHT + VERTICAL_SPACING) * (i : ℚ)) ∧
    ((layoutNodes tree h k).filter ProcessedNode.isLeaf).map ProcessedNode.y =
      (List.range (leafCountNode
          (.mk tree.topic tree.description (some tree.subtopics) none))).map
        (fun i : ℕ => PADDING + (NODE_HEIGHT + VERTICAL_SPACING) * (i : ℚ) +
          rootYOffset tree h k) ∧
    (((layoutNodes tree h k).filter ProcessedNode.isLeaf).map ProcessedNode.y).Pairwise
      (· < ·) := by
  have hm := layout_master_node (.mk tree.topic tree.description (some tree.subtopics) none)
    0 "" [] PADDING []
  have hpre : (layoutPre tree).2.2 = flattenNode (layoutPre tree).1 := by
    simpa [layoutPre] using hm.1
  have h1 : (((layoutPre tree).2.2).filter ProcessedNode.isLeaf).map ProcessedNode.y =
      (List.range (leafCountNode
          (.mk tree.topic tree.description (some tree.subtopics) none))).map
        (fun i : ℕ => PADDING + (NODE_HEIGHT + VERTICAL_SPACING) * (i : ℚ)) := by
    rw [hpre]
    simpa [layoutPre] using hm.2.2.2.1
  have h2 : ((layoutNodes tree h k).filter ProcessedNode.isLeaf).map ProcessedNode.y =
      (List.range (leafCountNode
          (.mk tree.topic tree.description (some tree.subtopics) none))).map
        (fun i : ℕ => PADDING + (NODE_HEIGHT + VERTICAL_SPACING) * (i : ℚ) +
          rootYOffset tree h k) := by
    rw [layoutNodes, addYList_eq_map, List.filter_map]
    have hleaf : (ProcessedNode.isLeaf ∘ addYNode (rootYOffset tree h k)) =
        ProcessedNode.isLeaf := by
      funext q
      exact isLeaf_addYNode _ q
    rw [hleaf, List.map_map]
    have hy : (ProcessedNode.y ∘ addYNode (rootYOffset tree h k)) =
        fun q => q.y + rootYOffset tree h k := by
      funext q
      exact addYNode_y _ q
    rw [hy]
    have : (fun q : ProcessedNode => q.y + rootYOffset tree h k) =
        ((fun v : ℚ => v + rootYOffset tree h k) ∘ ProcessedNode.y) := rfl
    rw [this, ← List.map_map, h1, List.map_map]
    rfl
  refine ⟨h1, h2, ?_⟩
  rw [h2]
  have hgap : (0 : ℚ) < NODE_HEIGHT + VERTICAL_SPACING := by
    norm_num [NODE_HEIGHT, VERTICAL_SPACING]
  refine List.Pairwise.map _ ?_ (List.pairwise_lt_range _)
  intro a b hab
  have hcast : (a : ℚ) < (b : ℚ) := by exact_mod_cast hab
  have := mul_lt_mul_of_pos_left hcast hgap
  linarith

/-- **C5**.  After the global centering step the root's final y is exactly
`containerHeight / (2 * zoom)`, the root is the last element of the output
list, every node's final y is its pre-offset y plus the common offset, and
hence all pairwise y-distances are unchanged by the offset. -/
theorem C5_root_centering (tree : KnowledgeTree) (h k : ℚ) :
    (layoutRoot tree h k).y = h / (2 * k) ∧
    (layoutNodes tree h k).getLast? = some (layoutRoot tree h k) ∧
    (∀ (i : Nat) (pi qi : ProcessedNode), (layoutNodes tree h k)[i]? = some pi →
        ((layoutPre tree).2.2)[i]? = some qi → pi.y = qi.y + rootYOffset tree h k) ∧
    (∀ (i j : Nat) (pi pj qi qj : ProcessedNode), (layoutNodes tree h k)[i]? = some pi →
        (layoutNodes tree h k)[j]? = some pj →
        ((layoutPre tree).2.2)[i]? = some qi →
        ((layoutPre tree).2.2)[j]? = some qj →
        pi.y - pj.y = qi.y - qj.y) := by
  have hshift : ∀ (i : Nat) (pi qi : ProcessedNode), (layoutNodes tree h k)[i]? = some pi →
      ((layoutPre tree).2.2)[i]? = some qi → pi.y = qi.y + rootYOffset tree h k := by
    intro i pi qi hpi hqi
    rw [layoutNodes, addYList_eq_map, List.getElem?_map, hqi] at hpi
    simp only [Option.map_some', Option.some_inj] at hpi
    subst hpi
    exact addYNode_y _ qi
  refine ⟨?_, ?_, hshift, ?_⟩
  · rw [layoutRoot, addYNode_y, rootYOffset]
    ring
  · have hm := layout_master_node (.mk tree.topic tree.description (some tree.subtopics) none)
      0 "" [] PADDING []
    have hpre : (layoutPre tree).2.2 = flattenNode (layoutPre tree).1 := by
      simpa [layoutPre] using hm.1
    rw [layoutNodes, hpre, addY_flattenNode, flattenNode_getLast?]
    rfl
  · intro i j pi pj qi qj hpi hpj hqi hqj
    rw [hshift i pi qi hpi hqi, hshift j pj qj hpj hqj]
    ring

/-- **C10**.  The flat `nodes` list produced by the layout contains exactly
one positioned node per node of the input tree — stripping the copied data
fields recovers the input tree's nodes, in post-order, with neither
duplication nor omission — and the list is the post-order flattening of the
returned root, whose descendants therefore all precede it; in particular the
root is the last element. -/
theorem C10_postorder (tree : KnowledgeTree) (h k : ℚ) :
    (layoutPre tree).2.2 = flattenNode (layoutPre tree).1 ∧
    ((layoutPre tree).2.2).map stripNode =
      dataPostorderNode (.mk tree.topic tree.description (some tree.subtopics) none) ∧
    layoutNodes tree h k = flattenNode (layoutRoot tree h k) ∧
    (layoutNodes tree h k).map stripNode =
      dataPostorderNode (.mk tree.topic tree.description (some tree.subtopics) none) ∧
    (layoutNodes tree h k).getLast? = some (layoutRoot tree h k) := by
  have hm := layout_master_node (.mk tree.topic tree.description (some tree.subtopics) none)
    0 "" [] PADDING []
  have hpre : (layoutPre tree).2.2 = flattenNode (layoutPre tree).1 := by
    simpa [layoutPre] using hm.1
  have hstrip : ((layoutPre tree).2.2).map stripNode =
      dataPostorderNode (.mk tree.topic tree.description (some tree.subtopics) none) := by
    rw [hpre]
    simpa [layoutPre] using hm.2.2.2.2
  have hfin : layoutNodes tree h k = flattenNode (layoutRoot tree h k) := by
    rw [layoutNodes, hpre, addY_flattenNode]
    rfl
  refine ⟨hpre, hstrip, hfin, ?_, ?_⟩
  · rw [layoutNodes, addYList_eq_map, List.map_map]
    have : (stripNode ∘ addYNode (rootYOffset tree h k)) = stripNode := by
      funext q
      exact stripNode_addYNode _ q
    rw [this, hstrip]
  · rw [hfin, flattenNode_getLast?]

-- ### A concrete sample layout used by the witnesses

def sampleTree : KnowledgeTree :=
  ⟨"R", "rd", [.mk "A" "ad" none none, .mk "B" "bd" none none]⟩

def samplePreA : ProcessedNode := .mk "A" "ad" none none 270 50 [] "R > A" [0]

def samplePreB : ProcessedNode := .mk "B" "bd" none none 270 120 [] "R > B" [1]

def samplePreRoot : ProcessedNode :=
  .mk "R" "rd" (some [.mk "A" "ad" none none, .mk "B" "bd" none none]) none 50 85
    [samplePreA, samplePreB] "R" []

def sampleA : ProcessedNode := .mk "A" "ad" none none 270 265 [] "R > A" [0]

def sampleB : ProcessedNode := .mk "B" "bd" none none 270 335 [] "R > B" [1]

def sampleRoot : ProcessedNode :=
  .mk "R" "rd" (some [.mk "A" "ad" none none, .mk "B" "bd" none none]) none 50 300
    [sampleA, sampleB] "R" []

theorem sample_layoutPre_eval :
    layoutPre sampleTree = (samplePreRoot, 190, [samplePreA, samplePreB, samplePreRoot]) := by
  simp [layoutPre, sampleTree, layoutNode, layoutChildren, samplePreRoot, samplePreA,
    samplePreB, ProcessedNode.y, PADDING, NODE_HEIGHT, VERTICAL_SPACING, LEVEL_SPACING]
  norm_num

theorem sample_offset_eval : rootYOffset sampleTree 600 1 = 215 := by
  rw [rootYOffset, sample_layoutPre_eval]
  simp only [samplePreRoot, ProcessedNode.y]
  norm_num

theorem sample_layout_eval :
    layoutNodes sampleTree 600 1 = [sampleA, sampleB, sampleRoot] := by
  rw [layoutNodes, sample_offset_eval, sample_layoutPre_eval]
  simp only [addYList, addYNode, samplePreA, samplePreB, samplePreRoot, sampleA, sampleB,
    sampleRoot]
  norm_num

theorem C3_parent_centering_witness :
    sampleRoot.y = sampleA.y + (sampleB.y - sampleA.y) / 2 :=
  C3_parent_centering sampleTree 600 1 sampleRoot
    (by rw [sample_layout_eval]; simp) sampleA sampleB rfl rfl

theorem C5_root_centering_witness :
    (layoutRoot sampleTree 600 1).y = 600 / (2 * 1) ∧
    sampleA.y = samplePreA.y + rootYOffset sampleTree 600 1 :=
  ⟨(C5_root_centering sampleTree 600 1).1,
   (C5_root_centering sampleTree 600 1).2.2.1 0 sampleA samplePreA
     (by rw [sample_layout_eval]; rfl) (by rw [sample_layoutPre_eval]; rfl)⟩

